import Mathlib

/-! Line-number gutter of `assets/js/script.js`.

A shallow embedding of the DOM-ready callback of `assets/js/script.js`, which
puts a line-number gutter before every `<pre>` block, and the properties of
the gutter it builds.

JavaScript strings are sequences of UTF-16 code units; they are modelled as
lists of natural numbers (one per code unit).  `String.prototype.split`,
the sparse array `lines`, `Array.prototype.splice`, the assignment
`lines[i] = v`, the operator `+=` and `Array.prototype.join` are each given
their ECMAScript meaning on that representation.
-/

namespace LineGutter

/-! ## JavaScript values -/

/-- A JavaScript string: its sequence of UTF-16 code units. -/
abbrev JSString := List Nat

/-- The UTF-16 code units of a Lean string literal. -/
def utf16 (s : String) : JSString :=
  s.toList.flatMap fun c =>
    if c.toNat < 65536 then [c.toNat]
    else [55296 + (c.toNat - 65536) / 1024, 56320 + (c.toNat - 65536) % 1024]

/-- The values stored in the array `lines`: a number (`i + 1`) or a string
(the number with continuation newlines appended). -/
inductive Value where
  | number (n : Nat)
  | string (s : JSString)
  deriving DecidableEq, Repr

/-- A JavaScript array, possibly with holes (`none`). -/
abbrev JSArray := List (Option Value)

/-- The result of `Number::toString` on a non-negative integer (a line
number, below `2 ^ 32`): its decimal digits. -/
def numberToString (n : Nat) : JSString :=
  (Nat.toDigits 10 n).map Char.toNat

/-- The operation `ToString` on what reading an array slot yields; a hole
reads as `undefined`. -/
def toStr : Option Value → JSString
  | none => utf16 "undefined"
  | some (Value.number n) => numberToString n
  | some (Value.string s) => s

/-- The operator `+` with a string right operand: string concatenation of
`ToString` of the left operand and the right operand. -/
def plusString (v : Option Value) (s : JSString) : Value :=
  Value.string (toStr v ++ s)

/-! ## Library operations -/

/-- The call `s.split(sep)` for a separator of one code unit. -/
def split (sep : Nat) : JSString → List JSString
  | [] => [[]]
  | c :: cs =>
    if c = sep then [] :: split sep cs
    else
      match split sep cs with
      | [] => [[c]]
      | l :: ls => (c :: l) :: ls

/-- The call `s.split("")`: one string per code unit. -/
def splitChars (s : JSString) : List JSString :=
  s.map fun c => [c]

/-- The array `new Array(n)`: `n` holes. -/
def newArray (n : Nat) : JSArray :=
  List.replicate n none

/-- The call `a.splice(i, 1)`: removes the slot at index `i`, if there is one. -/
def splice1 (a : JSArray) (i : Nat) : JSArray :=
  a.eraseIdx i

/-- The assignment `a[i] = v`: overwrites slot `i`, growing the array with
holes when `i` is past the end. -/
def assign (a : JSArray) (i : Nat) (v : Value) : JSArray :=
  if i < a.length then a.set i (some v)
  else a ++ List.replicate (i - a.length) none ++ [some v]

/-- The read `a[i]`: the slot at index `i` (`none` reads as `undefined`). -/
def read (a : JSArray) (i : Nat) : Option Value :=
  (a.get? i).join

/-- The string a slot contributes to `join`: holes and `undefined` give the
empty string. -/
def joinItem : Option Value → JSString
  | none => []
  | some v => toStr (some v)

/-- The call `a.join(sep)`. -/
def join (sep : JSString) (a : JSArray) : JSString :=
  List.intercalate sep (a.map joinItem)

/-! ## The callback of `$("pre").each` -/

/-- The code unit of `"\n"`. -/
def newline : Nat := 10

/-- The value `Math.floor(line.split("").length / 81)` of `wrap`; the
floating-point quotient is exact for every length a string can have, so its
floor is the integer quotient. -/
def wrapCount (line : JSString) : Nat :=
  (splitChars line).length / 81

/-- The loop `for (var j = 0; j < wrap; j++) { lines[i] += "\n"; }`. -/
def appendNewlines (i : Nat) : Nat → JSArray → JSArray
  | 0, lines => lines
  | wrap + 1, lines =>
    appendNewlines i wrap (assign lines i (plusString (read lines i) [newline]))

/-- The body of the loop over `i`, for the array `pre` of logical lines. -/
def loopBody (pre : List JSString) (lines : JSArray) (i : Nat) : JSArray :=
  let line := pre.getD i []
  let wrap := wrapCount line
  if line = [] ∧ i + 1 = pre.length then
    splice1 lines i
  else
    appendNewlines i wrap (assign lines i (Value.number (i + 1)))

/-- The array `lines` after the loop `for (var i = 0; i < pre.length; i++)`,
started from `new Array(pre.length + 1)`. -/
def buildLines (pre : List JSString) : JSArray :=
  (List.range pre.length).foldl (loopBody pre) (newArray (pre.length + 1))

/-- The array `pre` of logical lines: `$(this).text().split("\n")`. -/
def logicalLines (text : JSString) : List JSString :=
  split newline text

/-- The array `lines` built for a code block with text `text`. -/
def gutterLines (text : JSString) : JSArray :=
  buildLines (logicalLines text)

/-- The text `lines.join("\n")` of the gutter of a code block. -/
def gutterText (text : JSString) : JSString :=
  join [newline] (gutterLines text)

/-- The argument of `$(this).before(...)`. -/
def gutterHtml (text : JSString) : JSString :=
  utf16 "<pre class='lines'>" ++ gutterText text ++ utf16 "</pre>"

/-! ## The page -/

/-- An element of the page: the identity of the DOM node, its tag name, its
`class` attribute and its text content. -/
structure Node where
  id : Nat
  tag : String
  cls : String
  text : JSString
  deriving DecidableEq, Repr

/-- The page, as the sequence of its elements in document order. -/
abbrev Page := List Node

/-- The selection `$("pre")`: the elements matched by the selector, in
document order; the jQuery object holds references to them. -/
def selectPre (page : Page) : List Nat :=
  (page.filter fun n => n.tag = "pre").map Node.id

/-- The call `$(this).text()` for the element referred to by `ref`. -/
def textOf (page : Page) (ref : Nat) : JSString :=
  match page.find? fun n => n.id = ref with
  | some n => n.text
  | none => []

/-- The largest identity in use on the page. -/
def maxId (page : Page) : Nat :=
  (page.map Node.id).foldr max 0

/-- The element built from the string `"<pre class='lines'>" + ... + "</pre>"`:
a new `pre` element of class `lines` whose text content is the text put between
the tags. -/
def gutterNode (id : Nat) (text : JSString) : Node :=
  { id := id, tag := "pre", cls := "lines", text := text }

/-- The call `$(this).before(content)`: inserts the new element right before
the element referred to by `ref`. -/
def insertBefore : Page → Nat → Node → Page
  | [], _, _ => []
  | n :: rest, ref, new =>
    if n.id = ref then new :: n :: rest else n :: insertBefore rest ref new

/-- The callback of `each`, run on the element referred to by `ref`; the
inserted element gets an identity not in use on the page. -/
def eachStep (page : Page) (ref : Nat) : Page :=
  insertBefore page ref (gutterNode (maxId page + 1) (gutterText (textOf page ref)))

/-- The callback of `$(document).ready`: `$("pre").each(...)`. -/
def annotate (page : Page) : Page :=
  (selectPre page).foldl eachStep page

/-- The page with a gutter put before each `pre` element, the gutters taking
the identities `next`, `next + 1`, ... -/
def weave (next : Nat) : Page → Page
  | [] => []
  | n :: rest =>
    if n.tag = "pre" then gutterNode next (gutterText n.text) :: n :: weave (next + 1) rest
    else n :: weave next rest

/-! ## Notions used to state the properties -/

/-- The value left in a slot holding `v` after `w` rounds of `+= "\n"`. -/
def withNewlines (v : Value) (w : Nat) : Value :=
  if w = 0 then v else Value.string (toStr (some v) ++ List.replicate w newline)

/-- The slot the loop body leaves at index `i` when it numbers line `i`. -/
def slotOf (pre : List JSString) (i : Nat) : Option Value :=
  some (withNewlines (Value.number (i + 1)) (wrapCount (pre.getD i [])))

/-- The number of logical lines that get a number: all of them, but for an
empty last one. -/
def numberedCount (pre : List JSString) : Nat :=
  if pre.getD (pre.length - 1) [] = [] then pre.length - 1 else pre.length

/-- The text of the gutter entry of line `i`: the decimal digits of `i + 1`
followed by one newline per wrap of the line. -/
def entryText (pre : List JSString) (i : Nat) : JSString :=
  numberToString (i + 1) ++ List.replicate ((pre.getD i []).length / 81) newline

/-- An ASCII decimal digit. -/
def isDigit (c : Nat) : Prop := 48 ≤ c ∧ c ≤ 57

/-- The entries of the gutter: the values held by the slots of `lines`. -/
def entryValues (text : JSString) : List Value :=
  (gutterLines text).filterMap id

/-- The display values of the numbered lines: the strings of the entries. -/
def displayValues (text : JSString) : List JSString :=
  (entryValues text).map fun v => toStr (some v)

/-! ## Auxiliary facts about the library operations -/

theorem set_middle (A B : JSArray) (x y : Option Value) :
    (A ++ x :: B).set A.length y = A ++ y :: B := by
  induction A with
  | nil => rfl
  | cons a A ih => simp [List.set, ih]

theorem read_middle (A B : JSArray) (x : Option Value) :
    read (A ++ x :: B) A.length = x := by
  induction A with
  | nil => simp [read]
  | cons a A ih => simpa [read] using ih

theorem assign_middle (A B : JSArray) (x : Option Value) (v : Value) :
    assign (A ++ x :: B) A.length v = A ++ some v :: B := by
  have h : A.length < (A ++ x :: B).length := by simp
  simp only [assign, h, if_true, set_middle]

theorem appendNewlines_middle (w : Nat) (A B : JSArray) (v : Value) :
    appendNewlines A.length w (A ++ some v :: B) = A ++ some (withNewlines v w) :: B := by
  induction w generalizing v with
  | zero => simp [appendNewlines, withNewlines]
  | succ w ih =>
    rw [appendNewlines, read_middle, assign_middle, ih]
    congr 3
    unfold withNewlines plusString
    by_cases hw : w = 0
    · subst hw; simp
    · simp [hw, toStr, List.replicate_succ]

theorem eraseIdx_middle (A B : JSArray) (x : Option Value) :
    splice1 (A ++ x :: B) A.length = A ++ B := by
  induction A with
  | nil => rfl
  | cons a A ih => simpa [splice1] using ih

/-! ## What the loop computes -/

theorem loopBody_number (pre : List JSString) (A B : JSArray) (x : Option Value)
    (h : ¬ (pre.getD A.length [] = [] ∧ A.length + 1 = pre.length)) :
    loopBody pre (A ++ x :: B) A.length = A ++ slotOf pre A.length :: B := by
  simp only [loopBody, h, if_false, assign_middle, appendNewlines_middle, slotOf]

theorem loopBody_drop (pre : List JSString) (A B : JSArray) (x : Option Value)
    (h : pre.getD A.length [] = [] ∧ A.length + 1 = pre.length) :
    loopBody pre (A ++ x :: B) A.length = A ++ B := by
  simp only [loopBody, h, and_self, if_true, eraseIdx_middle]

theorem foldl_loopBody_range (pre : List JSString) (m k : Nat) (hk : k ≤ m)
    (h : ∀ i, i < k → ¬ (pre.getD i [] = [] ∧ i + 1 = pre.length)) :
    (List.range k).foldl (loopBody pre) (newArray (m + 1)) =
      (List.range k).map (slotOf pre) ++ List.replicate (m + 1 - k) none := by
  induction k with
  | zero => simp [newArray]
  | succ k ih =>
    have hlen : ((List.range k).map (slotOf pre)).length = k := by simp
    have hrep : m + 1 - k = (m - k) + 1 := by omega
    have hrep2 : m + 1 - (k + 1) = m - k := by omega
    rw [List.range_succ, List.foldl_append, ih (by omega) (fun i hi => h i (by omega)),
      List.foldl_cons, List.foldl_nil, hrep, List.replicate_succ, hrep2]
    have key := loopBody_number pre ((List.range k).map (slotOf pre))
      (List.replicate (m - k) none) none
    rw [hlen] at key
    rw [key (h k (by omega))]
    simp

theorem buildLines_eq (pre : List JSString) :
    buildLines pre = (List.range (numberedCount pre)).map (slotOf pre) ++ [none] := by
  unfold buildLines numberedCount
  by_cases hlast : pre.getD (pre.length - 1) [] = []
  · rw [if_pos hlast]
    rcases Nat.eq_zero_or_pos pre.length with h0 | hpos
    · simp [h0, newArray]
    · obtain ⟨k, hk⟩ : ∃ k, pre.length = k + 1 := ⟨pre.length - 1, by omega⟩
      rw [hk] at hlast ⊢
      simp only [Nat.add_sub_cancel] at hlast ⊢
      have hlen : ((List.range k).map (slotOf pre)).length = k := by simp
      have hrep : k + 1 + 1 - k = 2 := by omega
      rw [List.range_succ, List.foldl_append,
        foldl_loopBody_range pre (k + 1) k (by omega) (fun i hi => by omega),
        List.foldl_cons, List.foldl_nil, hrep]
      have key := loopBody_drop pre ((List.range k).map (slotOf pre)) [none] none
      rw [hlen] at key
      exact key ⟨hlast, hk.symm⟩
  · rw [if_neg hlast]
    have h : ∀ i, i < pre.length → ¬ (pre.getD i [] = [] ∧ i + 1 = pre.length) := by
      rintro i - ⟨h1, h2⟩
      have : i = pre.length - 1 := by omega
      exact hlast (this ▸ h1)
    rw [foldl_loopBody_range pre pre.length pre.length (le_refl _) h]
    simp

theorem wrapCount_eq (line : JSString) : wrapCount line = line.length / 81 := by
  simp [wrapCount, splitChars]

theorem toStr_withNewlines (n w : Nat) :
    toStr (some (withNewlines (Value.number n) w)) =
      numberToString n ++ List.replicate w newline := by
  unfold withNewlines
  by_cases hw : w = 0
  · subst hw; simp [toStr]
  · simp [hw, toStr]

theorem joinItem_slotOf (pre : List JSString) (i : Nat) :
    joinItem (slotOf pre i) = entryText pre i := by
  simp only [slotOf, joinItem, toStr_withNewlines, wrapCount_eq, entryText]

theorem intercalate_snoc_nil {α : Type} (sep : List α) (xs : List (List α)) :
    List.intercalate sep (xs ++ [[]]) = (xs.map fun x => x ++ sep).flatten := by
  induction xs with
  | nil => simp [List.intercalate]
  | cons x xs ih =>
    cases xs with
    | nil => simp [List.intercalate]
    | cons y ys =>
      simp only [List.intercalate, List.cons_append, List.intersperse, List.flatten_cons,
        List.map_cons] at ih ⊢
      have e : ys.append [[]] = ys ++ [[]] := rfl
      rw [e, ih]
      simp

theorem gutterLines_eq (text : JSString) :
    gutterLines text =
      (List.range (numberedCount (logicalLines text))).map (slotOf (logicalLines text))
        ++ [none] :=
  buildLines_eq _

theorem gutterText_eq (text : JSString) :
    gutterText text =
      ((List.range (numberedCount (logicalLines text))).map
        fun i => entryText (logicalLines text) i ++ [newline]).flatten := by
  unfold gutterText join
  rw [gutterLines_eq, List.map_append, List.map_singleton]
  show List.intercalate _ (_ ++ [[]]) = _
  rw [intercalate_snoc_nil, List.map_map, List.map_map]
  congr 1
  apply List.map_congr_left
  intro i _
  simp [joinItem_slotOf]

/-! ## Decimal digits -/

theorem digitChar_isDigit (d : Nat) (h : d < 10) : isDigit (Nat.digitChar d).toNat := by
  unfold isDigit
  interval_cases d <;> decide

theorem toDigitsCore_isDigit (fuel n : Nat) (acc : List Char)
    (hacc : ∀ c ∈ acc, isDigit c.toNat) :
    ∀ c ∈ Nat.toDigitsCore 10 fuel n acc, isDigit c.toNat := by
  induction fuel generalizing n acc with
  | zero => simpa [Nat.toDigitsCore] using hacc
  | succ fuel ih =>
    have hd : isDigit (Nat.digitChar (n % 10)).toNat :=
      digitChar_isDigit _ (Nat.mod_lt _ (by decide))
    have hacc2 : ∀ c ∈ Nat.digitChar (n % 10) :: acc, isDigit c.toNat := by
      intro c hc
      rcases List.mem_cons.mp hc with h | h
      · exact h ▸ hd
      · exact hacc c h
    unfold Nat.toDigitsCore
    by_cases h0 : n / 10 = 0
    · simpa [h0] using hacc2
    · simp only [h0, if_false]
      exact ih _ _ hacc2

theorem numberToString_isDigit (n c : Nat) (h : c ∈ numberToString n) : isDigit c := by
  unfold numberToString at h
  obtain ⟨ch, hch, rfl⟩ := List.mem_map.mp h
  exact toDigitsCore_isDigit _ _ [] (by simp) ch hch

theorem newline_not_mem_numberToString (n : Nat) : newline ∉ numberToString n := by
  intro h
  have := numberToString_isDigit n newline h
  unfold isDigit newline at this
  omega

theorem toDigitsCore_ne_nil (fuel n : Nat) (acc : List Char) (h : acc ≠ [] ∨ fuel ≠ 0) :
    Nat.toDigitsCore 10 fuel n acc ≠ [] := by
  induction fuel generalizing n acc with
  | zero => simpa [Nat.toDigitsCore] using h
  | succ fuel ih =>
    unfold Nat.toDigitsCore
    by_cases h0 : n / 10 = 0
    · simp [h0]
    · simp only [h0, if_false]
      exact ih _ _ (Or.inl (by simp))

theorem numberToString_ne_nil (n : Nat) : numberToString n ≠ [] := by
  unfold numberToString Nat.toDigits
  intro h
  exact toDigitsCore_ne_nil (n + 1) n [] (Or.inr (by omega)) (List.map_eq_nil_iff.mp h)

/-! ## Splitting on a separator -/

theorem split_ne_nil (sep : Nat) (s : JSString) : split sep s ≠ [] := by
  cases s with
  | nil => simp [split]
  | cons c cs =>
    unfold split
    by_cases h : c = sep
    · simp [h]
    · simp only [h, if_false]
      split <;> simp

theorem split_cons_of_ne (sep c : Nat) (cs : JSString) (h : c ≠ sep) :
    ∃ l ls, split sep cs = l :: ls ∧ split sep (c :: cs) = (c :: l) :: ls := by
  rcases hs : split sep cs with _ | ⟨l, ls⟩
  · exact absurd hs (split_ne_nil sep cs)
  · refine ⟨l, ls, rfl, ?_⟩
    rw [split]
    simp only [h, if_false, hs]

theorem split_append_cons (sep : Nat) (a b : JSString) :
    split sep (a ++ sep :: b) = split sep a ++ split sep b := by
  induction a with
  | nil => simp [split]
  | cons c a ih =>
    by_cases h : c = sep
    · subst h
      simp [split, ih]
    · obtain ⟨l, ls, h1, h2⟩ := split_cons_of_ne sep c a h
      obtain ⟨l2, ls2, h3, h4⟩ := split_cons_of_ne sep c (a ++ sep :: b) h
      rw [List.cons_append, h4, h2]
      rw [ih, h1] at h3
      simp only [List.cons_append, List.cons.injEq] at h3
      simp [h3.1, h3.2]

theorem split_append_sep (sep : Nat) (a : JSString) :
    split sep (a ++ [sep]) = split sep a ++ [[]] := by
  rw [split_append_cons]; rfl

theorem split_of_not_mem (sep : Nat) (a : JSString) (h : sep ∉ a) : split sep a = [a] := by
  induction a with
  | nil => rfl
  | cons c a ih =>
    have hc : c ≠ sep := fun e => h (by simp [e])
    obtain ⟨l, ls, h1, h2⟩ := split_cons_of_ne sep c a hc
    rw [ih (fun hm => h (List.mem_cons_of_mem _ hm))] at h1
    simp only [List.cons.injEq] at h1
    rw [h2, ← h1.1, ← h1.2]

theorem length_split (sep : Nat) (a : JSString) :
    (split sep a).length = a.count sep + 1 := by
  induction a with
  | nil => rfl
  | cons c a ih =>
    by_cases h : c = sep
    · subst h
      simp [split, ih]
    · obtain ⟨l, ls, h1, h2⟩ := split_cons_of_ne sep c a h
      rw [h2, List.count_cons_of_ne (Ne.symm h), ← ih, h1]
      rfl

/-! ## The last logical line -/

theorem getD_last_cons_cons (a b : JSString) (rest : List JSString) :
    (a :: b :: rest).getD ((a :: b :: rest).length - 1) [] =
      (b :: rest).getD ((b :: rest).length - 1) [] := by
  simp [List.getD]

theorem mem_of_getLast? (sep : Nat) (s : JSString) (h : s.getLast? = some sep) : sep ∈ s :=
  List.mem_of_getLast?_eq_some h

theorem getLast?_cons_of_ne (sep c : Nat) (s : JSString) (hc : c ≠ sep) :
    (c :: s).getLast? = some sep ↔ s.getLast? = some sep := by
  cases s with
  | nil => simp [hc]
  | cons d s => simp [List.getLast?_cons_cons]

/-- The last logical line is empty exactly when the text is empty or ends
with the separator. -/
theorem last_line_empty_iff (sep : Nat) (s : JSString) :
    (split sep s).getD ((split sep s).length - 1) [] = [] ↔
      s = [] ∨ s.getLast? = some sep := by
  induction s with
  | nil => simp [split]
  | cons c s ih =>
    by_cases hc : c = sep
    · subst hc
      rcases hs : split c s with _ | ⟨l, ls⟩
      · exact absurd hs (split_ne_nil c s)
      · have e : split c (c :: s) = [] :: l :: ls := by simp [split, hs]
        rw [e, getD_last_cons_cons, ← hs, ih]
        cases s with
        | nil => simp
        | cons d s => simp [List.getLast?_cons_cons]
    · obtain ⟨l, ls, h1, h2⟩ := split_cons_of_ne sep c s hc
      rw [h2, getLast?_cons_of_ne sep c s hc]
      simp only [List.cons_ne_nil, false_or]
      cases ls with
      | nil =>
        have hcount : s.count sep = 0 := by
          have := length_split sep s
          rw [h1] at this
          simpa using this.symm
        have hmem : sep ∉ s := List.count_eq_zero.mp hcount
        constructor
        · intro h; simp [List.getD] at h
        · intro h; exact absurd (mem_of_getLast? sep s h) hmem
      | cons l2 ls2 =>
        rw [getD_last_cons_cons]
        rw [h1, getD_last_cons_cons] at ih
        rw [ih]
        constructor
        · rintro (h | h)
          · rw [h] at h1; simp [split] at h1
          · exact h
        · intro h; exact Or.inr h

/-! ## Numbered lines -/

theorem range_split (n i : Nat) (h : i < n) :
    ∃ rest, List.range n = List.range i ++ i :: rest := by
  obtain ⟨m, rfl⟩ : ∃ m, n = i + (m + 1) := ⟨n - i - 1, by omega⟩
  exact ⟨((List.range m).map Nat.succ).map (i + ·), by
    rw [List.range_add, List.range_succ_eq_map]; rfl⟩

theorem lt_numberedCount_iff (pre : List JSString) (i : Nat) :
    i < numberedCount pre ↔
      i < pre.length ∧ ¬ (pre.getD i [] = [] ∧ i + 1 = pre.length) := by
  unfold numberedCount
  by_cases hlast : pre.getD (pre.length - 1) [] = []
  · rw [if_pos hlast]
    constructor
    · intro h
      exact ⟨by omega, fun h2 => by omega⟩
    · rintro ⟨h1, h2⟩
      by_contra hge
      have hi : i = pre.length - 1 := by omega
      exact h2 ⟨hi ▸ hlast, by omega⟩
  · rw [if_neg hlast]
    constructor
    · intro h
      refine ⟨h, fun h2 => ?_⟩
      have hi : i = pre.length - 1 := by omega
      exact hlast (hi ▸ h2.1)
    · exact fun h => h.1

theorem numberedCount_le (pre : List JSString) : numberedCount pre ≤ pre.length := by
  unfold numberedCount
  split <;> omega

theorem get?_gutterLines (text : JSString) (i : Nat)
    (h : i < numberedCount (logicalLines text)) :
    (gutterLines text).get? i = some (slotOf (logicalLines text) i) := by
  rw [gutterLines_eq, List.get?_eq_getElem?, List.getElem?_append_left (by simpa using h)]
  simp [h]

theorem read_gutterLines (text : JSString) (i : Nat)
    (h : i < numberedCount (logicalLines text)) :
    read (gutterLines text) i = slotOf (logicalLines text) i := by
  unfold read
  rw [get?_gutterLines text i h]
  rfl

theorem length_gutterLines (text : JSString) :
    (gutterLines text).length = numberedCount (logicalLines text) + 1 := by
  simp [gutterLines_eq]

theorem logicalLines_ne_nil (text : JSString) : logicalLines text ≠ [] :=
  split_ne_nil _ _

theorem length_logicalLines_pos (text : JSString) : 0 < (logicalLines text).length :=
  List.length_pos.mpr (logicalLines_ne_nil text)

theorem filter_isSome_gutterLines (text : JSString) :
    (gutterLines text).filter Option.isSome =
      (List.range (numberedCount (logicalLines text))).map (slotOf (logicalLines text)) := by
  rw [gutterLines_eq, List.filter_append]
  have h1 : List.filter Option.isSome [(none : Option Value)] = [] := rfl
  rw [h1, List.append_nil, List.filter_eq_self]
  intro a ha
  obtain ⟨i, -, rfl⟩ := List.mem_map.mp ha
  rfl

/-! ## The gutter entries -/

/-- C1: for every code block text and every numbered logical line at index
`i` (every line but an empty last one), the slot `lines[i]` holds a value whose
string is the decimal representation of `i + 1` followed by exactly
`floor(len / 81)` newline characters, `len` being the number of code units of
the line; a line of exactly 162 code units gives the digits followed by two
newlines. -/
theorem gutter_entry_numbered (text : JSString) (i : Nat)
    (hi : i < (logicalLines text).length)
    (hnum : ¬ ((logicalLines text).getD i [] = [] ∧ i + 1 = (logicalLines text).length)) :
    ∃ v, read (gutterLines text) i = some v ∧
      toStr (some v) = numberToString (i + 1) ++
        List.replicate (((logicalLines text).getD i []).length / 81) newline ∧
      (((logicalLines text).getD i []).length = 162 →
        toStr (some v) = numberToString (i + 1) ++ [newline, newline]) := by
  have hlt : i < numberedCount (logicalLines text) :=
    (lt_numberedCount_iff _ _).mpr ⟨hi, hnum⟩
  refine ⟨withNewlines (Value.number (i + 1)) (wrapCount ((logicalLines text).getD i [])),
    read_gutterLines text i hlt, ?_, ?_⟩
  · rw [toStr_withNewlines, wrapCount_eq]
  · intro h162
    rw [toStr_withNewlines, wrapCount_eq, h162]
    rfl

/-- C2: the number of entries of the gutter (the slots of `lines` that hold
a value) is the number of logical lines, less one exactly when the last
logical line is empty, which happens exactly when the text is empty or ends
with a newline; every other line, empty or not, keeps its entry. -/
theorem gutter_entry_count (text : JSString) :
    ((gutterLines text).filter Option.isSome).length +
        (if (logicalLines text).getD ((logicalLines text).length - 1) [] = [] then 1 else 0) =
      (logicalLines text).length ∧
    ((logicalLines text).getD ((logicalLines text).length - 1) [] = [] ↔
      (text = [] ∨ text.getLast? = some newline)) ∧
    (∀ i, i < (logicalLines text).length →
      ¬ ((logicalLines text).getD i [] = [] ∧ i + 1 = (logicalLines text).length) →
      ∃ v, (gutterLines text).get? i = some (some v)) := by
  refine ⟨?_, last_line_empty_iff newline text, ?_⟩
  · rw [filter_isSome_gutterLines, List.length_map, List.length_range]
    have hpos := length_logicalLines_pos text
    unfold numberedCount
    split <;> omega
  · intro i hi hnum
    have hlt : i < numberedCount (logicalLines text) :=
      (lt_numberedCount_iff _ _).mpr ⟨hi, hnum⟩
    exact ⟨_, get?_gutterLines text i hlt⟩

/-- C6: the wrap count of a logical line is 0 exactly when the line has at
most 80 code units (80 gives 0, 81 gives 1), and the entry of a numbered line
is the bare number exactly in that case. -/
theorem wrapCount_zero_iff (line : JSString) :
    (wrapCount line = 0 ↔ line.length ≤ 80) ∧
    (line.length = 80 → wrapCount line = 0) ∧
    (line.length = 81 → wrapCount line = 1) ∧
    (∀ text i, i < (logicalLines text).length →
      (logicalLines text).getD i [] = line →
      ¬ (line = [] ∧ i + 1 = (logicalLines text).length) →
      (read (gutterLines text) i = some (Value.number (i + 1)) ↔ line.length ≤ 80)) := by
  have hiff : wrapCount line = 0 ↔ line.length ≤ 80 := by
    rw [wrapCount_eq]; omega
  refine ⟨hiff, ?_, ?_, ?_⟩
  · intro h; rw [wrapCount_eq, h]
  · intro h; rw [wrapCount_eq, h]
  · intro text i hi hline hnum
    have hlt : i < numberedCount (logicalLines text) :=
      (lt_numberedCount_iff _ _).mpr ⟨hi, by rw [hline]; exact hnum⟩
    rw [read_gutterLines text i hlt, slotOf, hline, ← hiff]
    unfold withNewlines
    by_cases hw : wrapCount line = 0
    · simp [hw]
    · simp [hw]

set_option maxRecDepth 100000 in
/-- A block whose first line has 162 code units: its entry is `"1\n\n"`. -/
theorem gutter_entry_numbered_witness :
    0 < (logicalLines (List.replicate 162 97 ++ utf16 "\nb")).length ∧
    ∃ v, read (gutterLines (List.replicate 162 97 ++ utf16 "\nb")) 0 = some v ∧
      toStr (some v) = numberToString (0 + 1) ++
        List.replicate
          (((logicalLines (List.replicate 162 97 ++ utf16 "\nb")).getD 0 []).length / 81)
          newline ∧
      (((logicalLines (List.replicate 162 97 ++ utf16 "\nb")).getD 0 []).length = 162 →
        toStr (some v) = numberToString (0 + 1) ++ [newline, newline]) :=
  ⟨by decide,
    gutter_entry_numbered (List.replicate 162 97 ++ utf16 "\nb") 0 (by decide) (by decide)⟩

/-- The block `"abc\ndef\n"` has three logical lines and two entries. -/
theorem gutter_entry_count_witness :
    (logicalLines (utf16 "abc\ndef\n")).length = 3 ∧
    ((gutterLines (utf16 "abc\ndef\n")).filter Option.isSome).length = 2 ∧
    ∃ v, (gutterLines (utf16 "abc\ndef\n")).get? 1 = some (some v) :=
  ⟨by decide, by decide,
    (gutter_entry_count (utf16 "abc\ndef\n")).2.2 1 (by decide) (by decide)⟩

/-- Lines of 80 and of 81 code units. -/
theorem wrapCount_zero_iff_witness :
    wrapCount (List.replicate 80 97) = 0 ∧ wrapCount (List.replicate 81 97) = 1 :=
  ⟨(wrapCount_zero_iff (List.replicate 80 97)).2.1 (by simp),
    (wrapCount_zero_iff (List.replicate 81 97)).2.2.1 (by simp)⟩

/-! ## The gutter text -/

theorem entryValues_eq (text : JSString) :
    entryValues text =
      (List.range (numberedCount (logicalLines text))).map fun i =>
        withNewlines (Value.number (i + 1)) (wrapCount ((logicalLines text).getD i [])) := by
  unfold entryValues
  rw [gutterLines_eq, List.filterMap_append, List.filterMap_map]
  have h1 : List.filterMap id [(none : Option Value)] = [] := rfl
  rw [h1, List.append_nil]
  show List.filterMap (some ∘ fun i =>
    withNewlines (Value.number (i + 1)) (wrapCount ((logicalLines text).getD i []))) _ = _
  rw [List.filterMap_eq_map]

theorem displayValues_eq (text : JSString) :
    displayValues text =
      (List.range (numberedCount (logicalLines text))).map (entryText (logicalLines text)) := by
  unfold displayValues
  rw [entryValues_eq, List.map_map]
  apply List.map_congr_left
  intro i _
  simp [toStr_withNewlines, wrapCount_eq, entryText]

theorem gutterText_eq_displayValues (text : JSString) :
    gutterText text = ((displayValues text).map fun e => e ++ [newline]).flatten := by
  rw [gutterText_eq, displayValues_eq, List.map_map]
  rfl

theorem flatten_map_append_sep {α : Type} [DecidableEq α] (sep : List α) (xs : List (List α)) :
    (xs.map fun x => x ++ sep).flatten =
      List.intercalate sep xs ++ (if xs = [] then [] else sep) := by
  induction xs with
  | nil => simp [List.intercalate]
  | cons x xs ih =>
    cases xs with
    | nil => simp [List.intercalate]
    | cons y ys =>
      simp only [List.intercalate, List.intersperse, List.flatten_cons, List.map_cons,
        List.cons_ne_nil, if_false] at ih ⊢
      rw [ih]
      simp

/-- C3, as stated, fails: for the text `"abc\ndef\n"` the gutter text is
`"1\n2\n"`, not `"1\n2"`, and so is not the display values joined by
newlines with nothing after the last one. -/
theorem gutter_text_join_counterexample :
    gutterText (utf16 "abc\ndef\n") = utf16 "1\n2\n" ∧
    gutterText (utf16 "abc\ndef\n") ≠ utf16 "1\n2" ∧
    displayValues (utf16 "abc\ndef\n") = [utf16 "1", utf16 "2"] ∧
    gutterText (utf16 "abc\ndef\n") ≠
      List.intercalate [newline] (displayValues (utf16 "abc\ndef\n")) := by
  decide

/-- C3, amended: the gutter text is the display values of the numbered lines
joined with single newline separators, nothing before the first value, and
followed by one more newline whenever at least one line is numbered; for
`"abc\ndef\n"` it is `"1\n2\n"`. -/
theorem gutter_text_join_trailing (text : JSString) :
    gutterText text =
      List.intercalate [newline] (displayValues text) ++
        (if displayValues text = [] then [] else [newline]) ∧
    gutterText (utf16 "abc\ndef\n") = utf16 "1\n2\n" := by
  refine ⟨?_, by decide⟩
  rw [gutterText_eq_displayValues, flatten_map_append_sep]

set_option maxRecDepth 100000 in
/-- C4, as stated, fails: a block of one line of exactly 81 code units has
no line exceeding 81 code units, yet its single entry is the string `"1\n"`
and not the bare number 1. -/
theorem gutter_bare_numbers_counterexample :
    (∀ line ∈ logicalLines (List.replicate 81 97), line.length ≤ 81) ∧
    numberedCount (logicalLines (List.replicate 81 97)) = 1 ∧
    entryValues (List.replicate 81 97) = [Value.string (utf16 "1\n")] ∧
    entryValues (List.replicate 81 97) ≠ [Value.number 1] ∧
    displayValues (List.replicate 81 97) ≠ [numberToString 1] := by
  decide

/-- C4, amended: when every logical line has at most 80 code units, the
gutter has exactly `N` entries, `N` the number of logical lines other than an
empty last one, and they are the bare numbers 1, 2, ..., `N`. -/
theorem gutter_bare_numbers (text : JSString)
    (h : ∀ line ∈ logicalLines text, line.length ≤ 80) :
    (entryValues text).length = numberedCount (logicalLines text) ∧
    entryValues text =
      (List.range (numberedCount (logicalLines text))).map (fun i => Value.number (i + 1)) ∧
    displayValues text =
      (List.range (numberedCount (logicalLines text))).map
        (fun i => numberToString (i + 1)) := by
  have hw : ∀ i, i ∈ List.range (numberedCount (logicalLines text)) →
      wrapCount ((logicalLines text).getD i []) = 0 := by
    intro i hi
    have hlt : i < (logicalLines text).length :=
      lt_of_lt_of_le (List.mem_range.mp hi) (numberedCount_le _)
    have hmem : (logicalLines text).getD i [] ∈ logicalLines text := by
      rw [List.getD_eq_getElem _ _ hlt]
      exact List.getElem_mem hlt
    rw [wrapCount_eq]
    have := h _ hmem
    omega
  have hv : entryValues text =
      (List.range (numberedCount (logicalLines text))).map (fun i => Value.number (i + 1)) := by
    rw [entryValues_eq]
    apply List.map_congr_left
    intro i hi
    show withNewlines _ _ = _
    rw [hw i hi]
    rfl
  refine ⟨by rw [hv]; simp, hv, ?_⟩
  unfold displayValues
  rw [hv, List.map_map]
  rfl

/-- The block `"ab\n\ncd\n"`: three numbered lines, entries 1, 2, 3. -/
theorem gutter_bare_numbers_witness :
    (∀ line ∈ logicalLines (utf16 "ab\n\ncd\n"), line.length ≤ 80) ∧
    entryValues (utf16 "ab\n\ncd\n") = [Value.number 1, Value.number 2, Value.number 3] :=
  ⟨by decide, (gutter_bare_numbers (utf16 "ab\n\ncd\n") (by decide)).2.1⟩

theorem mem_entryText (pre : List JSString) (i c : Nat) (h : c ∈ entryText pre i) :
    c = newline ∨ isDigit c := by
  unfold entryText at h
  rcases List.mem_append.mp h with h | h
  · exact Or.inr (numberToString_isDigit _ _ h)
  · exact Or.inl (List.eq_of_mem_replicate h)

theorem mem_gutterText (text : JSString) (c : Nat) (h : c ∈ gutterText text) :
    c = newline ∨ isDigit c := by
  rw [gutterText_eq] at h
  obtain ⟨l, hl, hc⟩ := List.mem_flatten.mp h
  obtain ⟨i, -, rfl⟩ := List.mem_map.mp hl
  rcases List.mem_append.mp hc with h | h
  · exact mem_entryText _ _ _ h
  · exact Or.inl (by simpa using h)

theorem head?_gutterText (text : JSString) :
    gutterText text = [] ∨ (gutterText text).head? = some 49 := by
  rw [gutterText_eq]
  rcases Nat.eq_zero_or_pos (numberedCount (logicalLines text)) with h | h
  · left; rw [h]; rfl
  · right
    obtain ⟨rest, hrest⟩ := range_split _ 0 h
    rw [hrest]
    rfl

/-- C8: whatever the code block contains, its gutter text consists only of
ASCII decimal digits and newline characters, and is empty or starts with the
digit 1; so the string handed to `before` is the fixed opening tag, that text
and the fixed closing tag, and the text holds none of `<`, `>`, `&`, quotes. -/
theorem gutter_text_digits_and_newlines (text : JSString) :
    (∀ c ∈ gutterText text, c = 10 ∨ (48 ≤ c ∧ c ≤ 57)) ∧
    (gutterText text = [] ∨ (gutterText text).head? = some 49) ∧
    gutterHtml text = utf16 "<pre class='lines'>" ++ gutterText text ++ utf16 "</pre>" ∧
    60 ∉ gutterText text ∧ 62 ∉ gutterText text ∧ 38 ∉ gutterText text ∧
    34 ∉ gutterText text ∧ 39 ∉ gutterText text := by
  have key : ∀ c ∈ gutterText text, c = 10 ∨ (48 ≤ c ∧ c ≤ 57) :=
    fun c hc => mem_gutterText text c hc
  refine ⟨key, head?_gutterText text, rfl, ?_, ?_, ?_, ?_, ?_⟩ <;>
  · intro hc
    have := key _ hc
    omega

theorem count_newline_entryText (pre : List JSString) (i : Nat) :
    (entryText pre i ++ [newline]).count newline = 1 + (pre.getD i []).length / 81 := by
  unfold entryText
  rw [List.count_append, List.count_append, List.count_replicate_self,
    List.count_eq_zero.mpr (newline_not_mem_numberToString _)]
  simp
  omega

theorem getLast?_flatten_map_snoc {α β : Type} (f : β → List α) (a : α) (l : List β)
    (h : l ≠ []) : ((l.map fun b => f b ++ [a]).flatten).getLast? = some a := by
  induction l using List.reverseRecOn with
  | nil => exact absurd rfl h
  | append_singleton l b _ =>
    rw [List.map_append, List.flatten_append, List.map_singleton, List.flatten_singleton,
      ← List.append_assoc, List.getLast?_concat]

/-- C9: the array `lines` always ends with one unassigned slot, so the gutter
text is the concatenation, over the numbered lines in order, of the entry
followed by one newline; it ends with a newline whenever a line is numbered,
is empty for the empty code block, and its newlines number
`sum_i (1 + floor(len_i / 81))` over the numbered lines. -/
theorem gutter_text_concat (text : JSString) :
    (gutterLines text).getLast? = some none ∧
    (gutterLines text).length = (entryValues text).length + 1 ∧
    gutterText text = ((displayValues text).map fun e => e ++ [newline]).flatten ∧
    (displayValues text ≠ [] → (gutterText text).getLast? = some newline) ∧
    gutterText [] = [] ∧
    (gutterText text).count newline =
      ((List.range (entryValues text).length).map fun i =>
        1 + ((logicalLines text).getD i []).length / 81).sum := by
  have hlen : (entryValues text).length = numberedCount (logicalLines text) := by
    rw [entryValues_eq]; simp
  refine ⟨?_, ?_, gutterText_eq_displayValues text, ?_, by decide, ?_⟩
  · rw [gutterLines_eq, List.getLast?_concat]
  · rw [length_gutterLines, hlen]
  · intro hne
    rw [gutterText_eq_displayValues]
    exact getLast?_flatten_map_snoc (fun e => e) newline _ hne
  · rw [hlen, gutterText_eq, List.count_flatten, List.map_map]
    congr 1
    apply List.map_congr_left
    intro i _
    exact count_newline_entryText _ i

/-- The block `"abc\ndef"`: two numbered lines, so the text ends with a
newline. -/
theorem gutter_text_concat_witness :
    displayValues (utf16 "abc\ndef") ≠ [] ∧
    (gutterText (utf16 "abc\ndef")).getLast? = some newline :=
  ⟨by decide, (gutter_text_concat (utf16 "abc\ndef")).2.2.2.1 (by decide)⟩

/-! ## Rows of the gutter -/

theorem split_row (sep : Nat) (before d after : JSString)
    (hb : before = [] ∨ before.getLast? = some sep) (hd : sep ∉ d)
    (ha : after.head? = some sep) :
    (split sep (before ++ d ++ after)).get? (before.count sep) = some d := by
  obtain ⟨rest, rfl⟩ := List.head?_eq_some_iff.mp ha
  have hmid : split sep (d ++ sep :: rest) = d :: split sep rest := by
    rw [split_append_cons, split_of_not_mem sep d hd]; rfl
  rcases hb with rfl | hb
  · simp [hmid]
  · obtain ⟨b, rfl⟩ := List.getLast?_eq_some_iff.mp hb
    have e : b ++ [sep] ++ d ++ sep :: rest = b ++ sep :: (d ++ sep :: rest) := by simp
    rw [e, split_append_cons, hmid, List.count_append, List.get?_eq_getElem?,
      List.getElem?_append_right (by rw [length_split]; simp)]
    simp [length_split]

/-- C7: for every numbered logical line at index `i`, the gutter text is
some `before`, then the digits of `i + 1`, then some `after` that starts with
a newline, where `before` is empty or ends with a newline and holds
`sum_(j < i) (1 + floor(len_j / 81))` newlines; so the row of the gutter text
with that index is exactly the digits of `i + 1`. -/
theorem line_number_row (text : JSString) (i : Nat)
    (hi : i < (logicalLines text).length)
    (hnum : ¬ ((logicalLines text).getD i [] = [] ∧ i + 1 = (logicalLines text).length)) :
    (∃ before after,
      gutterText text = before ++ numberToString (i + 1) ++ after ∧
      before.count newline =
        ((List.range i).map fun j => 1 + ((logicalLines text).getD j []).length / 81).sum ∧
      (before = [] ∨ before.getLast? = some newline) ∧
      after.head? = some newline) ∧
    (split newline (gutterText text)).get?
        ((List.range i).map fun j => 1 + ((logicalLines text).getD j []).length / 81).sum =
      some (numberToString (i + 1)) := by
  have hlt : i < numberedCount (logicalLines text) :=
    (lt_numberedCount_iff _ _).mpr ⟨hi, hnum⟩
  obtain ⟨rest, hrest⟩ := range_split _ i hlt
  have hcount : (((List.range i).map fun j =>
        entryText (logicalLines text) j ++ [newline]).flatten).count newline =
      ((List.range i).map fun j => 1 + ((logicalLines text).getD j []).length / 81).sum := by
    rw [List.count_flatten, List.map_map]
    congr 1
    apply List.map_congr_left
    intro j _
    exact count_newline_entryText _ j
  have hbefore : ((List.range i).map fun j =>
        entryText (logicalLines text) j ++ [newline]).flatten = [] ∨
      (((List.range i).map fun j =>
        entryText (logicalLines text) j ++ [newline]).flatten).getLast? = some newline := by
    by_cases h0 : List.range i = []
    · left; rw [h0]; rfl
    · right; exact getLast?_flatten_map_snoc _ newline _ h0
  have hafter : (List.replicate (((logicalLines text).getD i []).length / 81) newline ++
      [newline] ++ ((rest.map fun j =>
        entryText (logicalLines text) j ++ [newline]).flatten)).head? = some newline := by
    cases ((logicalLines text).getD i []).length / 81 with
    | zero => rfl
    | succ w => rfl
  have hdecomp : gutterText text =
      ((List.range i).map fun j => entryText (logicalLines text) j ++ [newline]).flatten ++
        numberToString (i + 1) ++
        (List.replicate (((logicalLines text).getD i []).length / 81) newline ++
          [newline] ++ ((rest.map fun j =>
            entryText (logicalLines text) j ++ [newline]).flatten)) := by
    rw [gutterText_eq, hrest, List.map_append, List.map_cons, List.flatten_append,
      List.flatten_cons, entryText]
    simp only [List.append_assoc]
  refine ⟨⟨_, _, hdecomp, hcount, hbefore, hafter⟩, ?_⟩
  rw [hdecomp, ← hcount]
  exact split_row newline _ _ _ hbefore (newline_not_mem_numberToString _) hafter

/-- In `"ab\ncd"` preceded by a line of 81 code units, line 2 sits on row 2
and line 3 on row 3. -/
theorem line_number_row_witness :
    (split newline (gutterText (List.replicate 81 97 ++ utf16 "\nab\ncd"))).get?
        ((List.range 1).map fun j =>
          1 + ((logicalLines (List.replicate 81 97 ++ utf16 "\nab\ncd")).getD j []).length / 81).sum
      = some (numberToString (1 + 1)) :=
  (line_number_row (List.replicate 81 97 ++ utf16 "\nab\ncd") 1 (by decide) (by decide)).2

/-! ## A trailing newline -/

theorem logicalLines_append_newline (text : JSString) :
    logicalLines (text ++ [newline]) = logicalLines text ++ [[]] :=
  split_append_sep newline text

theorem numberedCount_snoc_nil (pre : List JSString) :
    numberedCount (pre ++ [[]]) = pre.length := by
  unfold numberedCount
  simp [List.getD_append_right]

theorem numberedCount_of_last_ne (pre : List JSString)
    (h : pre.getD (pre.length - 1) [] ≠ []) : numberedCount pre = pre.length := by
  unfold numberedCount
  rw [if_neg h]

theorem slotOf_snoc (pre : List JSString) (x : JSString) (i : Nat) (h : i < pre.length) :
    slotOf (pre ++ [x]) i = slotOf pre i := by
  unfold slotOf
  rw [List.getD_append _ _ _ _ h]

theorem entryText_snoc (pre : List JSString) (x : JSString) (i : Nat) (h : i < pre.length) :
    entryText (pre ++ [x]) i = entryText pre i := by
  unfold entryText
  rw [List.getD_append _ _ _ _ h]

theorem gutterText_append_newline_of_empty_last (text : JSString)
    (h : (logicalLines text).getD ((logicalLines text).length - 1) [] = []) :
    gutterText (text ++ [newline]) =
      gutterText text ++
        (entryText (logicalLines text) ((logicalLines text).length - 1) ++ [newline]) := by
  have hpos := length_logicalLines_pos text
  have hN : numberedCount (logicalLines text) = (logicalLines text).length - 1 := by
    unfold numberedCount; rw [if_pos h]
  have hlen : (logicalLines text).length = ((logicalLines text).length - 1) + 1 := by omega
  rw [gutterText_eq, gutterText_eq, logicalLines_append_newline, numberedCount_snoc_nil, hN]
  conv_lhs => rw [hlen, List.range_succ]
  rw [List.map_append, List.flatten_append, List.map_singleton, List.flatten_singleton,
    entryText_snoc _ _ _ (by omega)]
  congr 2
  apply List.map_congr_left
  intro i hi
  rw [entryText_snoc _ _ _ (by have := List.mem_range.mp hi; omega)]

/-- C10: appending one newline to the text leaves the array `lines` and the
gutter text unchanged when the text is non-empty and does not end with a
newline, that is when its last logical line is non-empty; otherwise the gutter
text changes, as it does for the empty text. -/
theorem gutter_text_append_newline (text : JSString) :
    ((logicalLines text).getD ((logicalLines text).length - 1) [] ≠ [] ↔
      (text ≠ [] ∧ text.getLast? ≠ some newline)) ∧
    (text ≠ [] → text.getLast? ≠ some newline →
      gutterLines (text ++ [newline]) = gutterLines text ∧
      gutterText (text ++ [newline]) = gutterText text) ∧
    ((text = [] ∨ text.getLast? = some newline) →
      gutterText (text ++ [newline]) ≠ gutterText text) ∧
    gutterText ([] ++ [newline]) ≠ gutterText [] := by
  have hiff := last_line_empty_iff newline text
  refine ⟨?_, ?_, ?_, by decide⟩
  · rw [Ne, show (logicalLines text) = split newline text from rfl, hiff]
    constructor
    · intro h; exact ⟨fun e => h (Or.inl e), fun e => h (Or.inr e)⟩
    · rintro ⟨h1, h2⟩ (h | h)
      · exact h1 h
      · exact h2 h
  · intro hne hlast
    have hl : (logicalLines text).getD ((logicalLines text).length - 1) [] ≠ [] := by
      intro h
      rcases hiff.mp h with h | h
      · exact hne h
      · exact hlast h
    have hlines : gutterLines (text ++ [newline]) = gutterLines text := by
      rw [gutterLines_eq, gutterLines_eq, logicalLines_append_newline, numberedCount_snoc_nil,
        numberedCount_of_last_ne _ hl]
      congr 1
      apply List.map_congr_left
      intro i hi
      exact slotOf_snoc _ _ i (List.mem_range.mp hi)
    refine ⟨hlines, ?_⟩
    unfold gutterText
    rw [hlines]
  · intro h
    rw [gutterText_append_newline_of_empty_last text (hiff.mpr h)]
    intro e
    have := congrArg List.length e
    simp at this

/-- The texts `"abc\ndef"` and `"abc\ndef\n"` have the same gutter. -/
theorem gutter_text_append_newline_witness :
    utf16 "abc\ndef" ≠ [] ∧ (utf16 "abc\ndef").getLast? ≠ some newline ∧
    gutterText (utf16 "abc\ndef" ++ [newline]) = gutterText (utf16 "abc\ndef") :=
  ⟨by decide, by decide,
    ((gutter_text_append_newline (utf16 "abc\ndef")).2.1 (by decide) (by decide)).2⟩

/-! ## Inserting the gutters into the page -/

theorem le_maxId (page : Page) (n : Node) (h : n ∈ page) : n.id ≤ maxId page := by
  induction page with
  | nil => cases h
  | cons m rest ih =>
    have e : maxId (m :: rest) = max m.id (maxId rest) := rfl
    rw [e]
    rcases List.mem_cons.mp h with h | h
    · rw [h]; exact le_max_left _ _
    · exact le_trans (ih h) (le_max_right _ _)

theorem maxId_middle (A B : Page) (x : Node) :
    maxId (A ++ x :: B) = max x.id (maxId (A ++ B)) := by
  induction A with
  | nil => rfl
  | cons a A ih =>
    have e1 : maxId (a :: A ++ x :: B) = max a.id (maxId (A ++ x :: B)) := rfl
    have e2 : maxId (a :: A ++ B) = max a.id (maxId (A ++ B)) := rfl
    rw [e1, e2, ih, max_left_comm]

theorem insertBefore_middle (A B : Page) (n new : Node) (h : ∀ a ∈ A, a.id ≠ n.id) :
    insertBefore (A ++ n :: B) n.id new = A ++ new :: n :: B := by
  induction A with
  | nil => simp [insertBefore]
  | cons a A ih =>
    have ha : a.id ≠ n.id := h a (List.mem_cons_self _ _)
    rw [List.cons_append, insertBefore, if_neg ha,
      ih (fun b hb => h b (List.mem_cons_of_mem _ hb))]
    rfl

theorem textOf_middle (A B : Page) (n : Node) (h : ∀ a ∈ A, a.id ≠ n.id) :
    textOf (A ++ n :: B) n.id = n.text := by
  induction A with
  | nil => simp [textOf]
  | cons a A ih =>
    have ha : a.id ≠ n.id := h a (List.mem_cons_self _ _)
    have := ih (fun b hb => h b (List.mem_cons_of_mem _ hb))
    unfold textOf at this ⊢
    rw [List.cons_append, List.find?_cons_of_neg _ (by simpa using ha)]
    exact this

theorem selectPre_cons (n : Node) (rest : Page) :
    selectPre (n :: rest) =
      if n.tag = "pre" then n.id :: selectPre rest else selectPre rest := by
  unfold selectPre
  by_cases h : n.tag = "pre"
  · simp [h]
  · simp [h]

theorem foldl_eachStep (sfx : Page) :
    ∀ pfx : Page, (sfx.map Node.id).Nodup →
      (∀ a ∈ pfx, ∀ n ∈ sfx, a.id ≠ n.id) →
      (selectPre sfx).foldl eachStep (pfx ++ sfx) =
        pfx ++ weave (maxId (pfx ++ sfx) + 1) sfx := by
  induction sfx with
  | nil => intro pfx _ _; simp [selectPre, weave]
  | cons n rest ih =>
    intro pfx hnd hdis
    have hnd2 : (rest.map Node.id).Nodup := (List.nodup_cons.mp hnd).2
    have hn : ∀ m ∈ rest, n.id ≠ m.id := by
      intro m hm e
      exact (List.nodup_cons.mp hnd).1 (e ▸ List.mem_map_of_mem Node.id hm)
    rw [selectPre_cons, weave]
    by_cases hpre : n.tag = "pre"
    · rw [if_pos hpre, if_pos hpre, List.foldl_cons]
      have hA : ∀ a ∈ pfx, a.id ≠ n.id := fun a ha => hdis a ha n (List.mem_cons_self _ _)
      have hstep : eachStep (pfx ++ n :: rest) n.id =
          (pfx ++ [gutterNode (maxId (pfx ++ n :: rest) + 1) (gutterText n.text), n]) ++ rest := by
        unfold eachStep
        rw [textOf_middle pfx rest n hA, insertBefore_middle pfx rest n _ hA]
        simp
      rw [hstep, ih _ hnd2]
      · have hmax : maxId (pfx ++
            [gutterNode (maxId (pfx ++ n :: rest) + 1) (gutterText n.text), n] ++ rest) =
            maxId (pfx ++ n :: rest) + 1 := by
          have e : pfx ++ [gutterNode (maxId (pfx ++ n :: rest) + 1) (gutterText n.text), n]
              ++ rest = pfx ++
                gutterNode (maxId (pfx ++ n :: rest) + 1) (gutterText n.text) :: (n :: rest) := by
            simp
          rw [e, maxId_middle]
          exact max_eq_left (Nat.le_succ _)
        rw [hmax]
        simp
      · intro a ha m hm
        rcases List.mem_append.mp ha with ha | ha
        · exact hdis a ha m (List.mem_cons_of_mem _ hm)
        · rcases List.mem_cons.mp ha with ha | ha
          · rw [ha]
            have : m.id ≤ maxId (pfx ++ n :: rest) :=
              le_maxId _ m (List.mem_append_right _ (List.mem_cons_of_mem _ hm))
            show maxId (pfx ++ n :: rest) + 1 ≠ m.id
            omega
          · rw [List.mem_singleton.mp ha]
            exact hn m hm
    · rw [if_neg hpre, if_neg hpre]
      have e : pfx ++ n :: rest = (pfx ++ [n]) ++ rest := by simp
      rw [e, ih _ hnd2]
      · simp
      · intro a ha m hm
        rcases List.mem_append.mp ha with ha | ha
        · exact hdis a ha m (List.mem_cons_of_mem _ hm)
        · rw [List.mem_singleton.mp ha]
          exact hn m hm

theorem annotate_eq_weave (page : Page) (h : (page.map Node.id).Nodup) :
    annotate page = weave (maxId page + 1) page := by
  have := foldl_eachStep page [] h (by simp)
  simpa [annotate] using this

theorem filter_weave (S : List Nat) (sfx : Page) :
    ∀ next : Nat, (∀ s ∈ S, s < next) → (∀ n ∈ sfx, n.id ∈ S) →
      (weave next sfx).filter (fun n => decide (n.id ∈ S)) = sfx := by
  induction sfx with
  | nil => intro _ _ _; rfl
  | cons n rest ih =>
    intro next hS hsub
    have hn : n.id ∈ S := hsub n (List.mem_cons_self _ _)
    have hrest : ∀ m ∈ rest, m.id ∈ S := fun m hm => hsub m (List.mem_cons_of_mem _ hm)
    have hg : next ∉ S := fun h => Nat.lt_irrefl _ (hS next h)
    rw [weave]
    by_cases hpre : n.tag = "pre"
    · rw [if_pos hpre, List.filter_cons_of_neg (by simpa [gutterNode] using hg),
        List.filter_cons_of_pos (by simpa using hn),
        ih (next + 1) (fun s hs => Nat.lt_succ_of_lt (hS s hs)) hrest]
    · rw [if_neg hpre, List.filter_cons_of_pos (by simpa using hn), ih next hS hrest]

theorem length_weave (sfx : Page) :
    ∀ next : Nat, (weave next sfx).length = sfx.length + (selectPre sfx).length := by
  induction sfx with
  | nil => intro _; rfl
  | cons n rest ih =>
    intro next
    rw [weave, selectPre_cons]
    by_cases hpre : n.tag = "pre"
    · simp only [if_pos hpre, List.length_cons, ih]; omega
    · simp only [if_neg hpre, List.length_cons, ih]; omega

theorem weave_adjacent (sfx : Page) :
    ∀ next : Nat, ∀ n ∈ sfx, n.tag = "pre" →
      ∃ A B k, next ≤ k ∧ weave next sfx = A ++ gutterNode k (gutterText n.text) :: n :: B := by
  induction sfx with
  | nil => intro _ n hn; cases hn
  | cons m rest ih =>
    intro next n hn hpre
    rw [weave]
    rcases List.mem_cons.mp hn with h | h
    · subst h
      rw [if_pos hpre]
      exact ⟨[], weave (next + 1) rest, next, le_refl _, rfl⟩
    · by_cases hm : m.tag = "pre"
      · obtain ⟨A, B, k, hk, e⟩ := ih (next + 1) n h hpre
        rw [if_pos hm, e]
        exact ⟨gutterNode next (gutterText m.text) :: m :: A, B, k, by omega, rfl⟩
      · obtain ⟨A, B, k, hk, e⟩ := ih next n h hpre
        rw [if_neg hm, e]
        exact ⟨m :: A, B, k, hk, rfl⟩

theorem mem_weave (sfx : Page) :
    ∀ next : Nat, ∀ g ∈ weave next sfx,
      g ∈ sfx ∨ (next ≤ g.id ∧ ∃ n ∈ sfx, n.tag = "pre" ∧
        g = gutterNode g.id (gutterText n.text)) := by
  induction sfx with
  | nil => intro _ g hg; cases hg
  | cons m rest ih =>
    intro next g hg
    rw [weave] at hg
    have lift : ∀ k, next ≤ k →
        (g ∈ rest ∨ (k ≤ g.id ∧ ∃ n ∈ rest, n.tag = "pre" ∧
          g = gutterNode g.id (gutterText n.text))) →
        (g ∈ m :: rest ∨ (next ≤ g.id ∧ ∃ n ∈ m :: rest, n.tag = "pre" ∧
          g = gutterNode g.id (gutterText n.text))) := by
      rintro k hk (h | ⟨h1, n, hn, h2⟩)
      · exact Or.inl (List.mem_cons_of_mem _ h)
      · exact Or.inr ⟨le_trans hk h1, n, List.mem_cons_of_mem _ hn, h2⟩
    by_cases hm : m.tag = "pre"
    · rw [if_pos hm] at hg
      rcases List.mem_cons.mp hg with h | h
      · right
        refine ⟨by rw [h]; exact le_refl _, m, List.mem_cons_self _ _, hm, ?_⟩
        rw [h]; rfl
      · rcases List.mem_cons.mp h with h | h
        · exact Or.inl (h ▸ List.mem_cons_self _ _)
        · exact lift (next + 1) (Nat.le_succ _) (ih (next + 1) g h)
    · rw [if_neg hm] at hg
      rcases List.mem_cons.mp hg with h | h
      · exact Or.inl (h ▸ List.mem_cons_self _ _)
      · exact lift next (le_refl _) (ih next g h)

theorem weave_of_no_pre (sfx : Page) (h : ∀ n ∈ sfx, n.tag ≠ "pre") :
    ∀ next : Nat, weave next sfx = sfx := by
  induction sfx with
  | nil => intro _; rfl
  | cons m rest ih =>
    intro next
    rw [weave, if_neg (h m (List.mem_cons_self _ _)),
      ih (fun n hn => h n (List.mem_cons_of_mem _ hn))]

theorem lt_of_mem_ids (page : Page) (s : Nat) (h : s ∈ page.map Node.id) :
    s < maxId page + 1 := by
  obtain ⟨n, hn, rfl⟩ := List.mem_map.mp h
  exact Nat.lt_succ_of_le (le_maxId page n hn)

/-- C5: on a page modelled as the sequence of its elements, each with its own
identity, the callback inserts exactly one new element per `pre` element: the
result has one more element per code block, every code block is immediately
preceded by a new `pre` element of class `lines` holding its gutter text, every
new element is such a gutter, and dropping the new elements gives back the page,
each element with its content and at its place; a page without code blocks is
left as it is. -/
theorem annotate_inserts_gutters (page : Page) (hid : (page.map Node.id).Nodup) :
    (annotate page).filter (fun n => decide (n.id ∈ page.map Node.id)) = page ∧
    (annotate page).length = page.length + (selectPre page).length ∧
    (∀ n ∈ page, n.tag = "pre" →
      ∃ A B g, annotate page = A ++ g :: n :: B ∧ g.id ∉ page.map Node.id ∧
        g.tag = "pre" ∧ g.cls = "lines" ∧ g.text = gutterText n.text) ∧
    (∀ g ∈ annotate page, g.id ∉ page.map Node.id →
      g.tag = "pre" ∧ g.cls = "lines" ∧
        ∃ n ∈ page, n.tag = "pre" ∧ g.text = gutterText n.text) ∧
    ((∀ n ∈ page, n.tag ≠ "pre") → annotate page = page) := by
  rw [annotate_eq_weave page hid]
  refine ⟨?_, length_weave page _, ?_, ?_, fun h => weave_of_no_pre page h _⟩
  · exact filter_weave _ page _ (lt_of_mem_ids page)
      (fun n hn => List.mem_map_of_mem Node.id hn)
  · intro n hn hpre
    obtain ⟨A, B, k, hk, e⟩ := weave_adjacent page (maxId page + 1) n hn hpre
    refine ⟨A, B, gutterNode k (gutterText n.text), e, ?_, rfl, rfl, rfl⟩
    intro hmem
    have := lt_of_mem_ids page _ hmem
    have hk2 : (gutterNode k (gutterText n.text)).id = k := rfl
    omega
  · intro g hg hnew
    rcases mem_weave page _ g hg with h | ⟨-, n, hn, hpre, e⟩
    · exact absurd (List.mem_map_of_mem Node.id h) hnew
    · refine ⟨by rw [e]; rfl, by rw [e]; rfl, n, hn, hpre, by rw [e]; rfl⟩

/-- A page made of a paragraph and one code block: one gutter is inserted. -/
theorem annotate_inserts_gutters_witness :
    (([⟨0, "p", "", utf16 "x"⟩, ⟨1, "pre", "", utf16 "abc\ndef\n"⟩] : Page).map Node.id).Nodup ∧
    (annotate [⟨0, "p", "", utf16 "x"⟩, ⟨1, "pre", "", utf16 "abc\ndef\n"⟩]).length =
      ([⟨0, "p", "", utf16 "x"⟩, ⟨1, "pre", "", utf16 "abc\ndef\n"⟩] : Page).length +
        (selectPre [⟨0, "p", "", utf16 "x"⟩, ⟨1, "pre", "", utf16 "abc\ndef\n"⟩]).length ∧
    annotate [⟨0, "p", "", utf16 "x"⟩, ⟨1, "pre", "", utf16 "abc\ndef\n"⟩] =
      [⟨0, "p", "", utf16 "x"⟩, ⟨2, "pre", "lines", utf16 "1\n2\n"⟩,
        ⟨1, "pre", "", utf16 "abc\ndef\n"⟩] :=
  ⟨by decide,
    (annotate_inserts_gutters [⟨0, "p", "", utf16 "x"⟩, ⟨1, "pre", "", utf16 "abc\ndef\n"⟩]
      (by decide)).2.1,
    by decide⟩

end LineGutter
